import Mathlib

/-!
# Shallow embedding of the webchain-rs keystore core

Rust strings are modelled as lists of characters, bytes as `Fin 256`,
fallible operations as `Except`/`Option` values.  The definitions follow
`src/emerald-core/src/storage/keyfile/db.rs`, `src/src/rpc/mod.rs` and
`src/src/util/mod.rs`; parts of the repository that are referenced there but
whose sources are not available (the `KeyFile` JSON codec, `generate_filename`,
the derivation/cipher engine, `AccountInfo`) are modelled from the
specification, as marked on each definition.
-/

namespace Emerald

/-- A byte of the Rust `u8` type. -/
abbrev Byte := Fin 256

/-- A Rust string, modelled as its list of characters. -/
abbrev RStr := List Char

/-- Separator for composing the KV value string in `db.rs`:
`value = <filename> + SEPARATOR + <keyfile_json>`. -/
def SEPARATOR : RStr := ['<', '|', '>']

/-- The part of a string before the first occurrence of `SEPARATOR`, and the
part after it; `none` when the separator does not occur.  This is the search
underlying Rust's `str::split` with the literal `"<|>"` pattern. -/
def findSep : RStr → Option (RStr × RStr)
  | [] => none
  | c :: cs =>
    if SEPARATOR.isPrefixOf (c :: cs) then some ([], (c :: cs).drop SEPARATOR.length)
    else
      match findSep cs with
      | some (b, a) => some (c :: b, a)
      | none => none

/-- Whether a string contains the literal separator `<|>`. -/
def hasSep (s : RStr) : Bool := (findSep s).isSome

/-- `str::split` on the separator, with explicit fuel so that the kernel can
evaluate it; `splitSep` below supplies enough fuel. -/
def splitSepFuel : Nat → RStr → List RStr
  | 0, s => [s]
  | fuel + 1, s =>
    match findSep s with
    | none => [s]
    | some (b, a) => b :: splitSepFuel fuel a

/-- Rust's `val.split(SEPARATOR).collect()`: all the fragments of `s` between
occurrences of the separator, in order. -/
def splitSep (s : RStr) : List RStr := splitSepFuel (s.length + 1) s

/-- Rust's `arr.join(SEPARATOR)`. -/
def joinSep : List RStr → RStr
  | [] => []
  | [x] => x
  | x :: y :: rest => x ++ SEPARATOR ++ joinSep (y :: rest)

theorem sep_isPrefixOf_iff (s : RStr) :
    SEPARATOR.isPrefixOf s = true ↔ ∃ t, s = '<' :: '|' :: '>' :: t := by
  constructor
  · intro h
    match s with
    | [] => simp [SEPARATOR, List.isPrefixOf] at h
    | [c] => simp [SEPARATOR, List.isPrefixOf] at h
    | [c, d] => simp [SEPARATOR, List.isPrefixOf] at h
    | c :: d :: e :: t =>
      simp only [SEPARATOR, List.isPrefixOf, Bool.and_eq_true, beq_iff_eq] at h
      obtain ⟨h1, h2, h3, -⟩ := h
      exact ⟨t, by rw [← h1, ← h2, ← h3]⟩
  · rintro ⟨t, rfl⟩
    simp [SEPARATOR, List.isPrefixOf]

theorem findSep_decomp : ∀ {s b a : RStr}, findSep s = some (b, a) → s = b ++ SEPARATOR ++ a := by
  intro s
  induction s with
  | nil => intro b a h; simp [findSep] at h
  | cons c cs ih =>
    intro b a h
    rw [findSep] at h
    by_cases hp : SEPARATOR.isPrefixOf (c :: cs) = true
    · rw [if_pos hp] at h
      obtain ⟨t, ht⟩ := (sep_isPrefixOf_iff _).mp hp
      simp only [Option.some.injEq, Prod.mk.injEq] at h
      obtain ⟨rfl, rfl⟩ := h
      rw [ht]
      simp [SEPARATOR]
    · rw [if_neg hp] at h
      cases hcs : findSep cs with
      | none => rw [hcs] at h; cases h
      | some p =>
        obtain ⟨b0, a0⟩ := p
        rw [hcs] at h
        simp only [Option.some.injEq, Prod.mk.injEq] at h
        obtain ⟨rfl, rfl⟩ := h
        simp [ih hcs]

theorem findSep_none_cons {c : Char} {cs : RStr} (h : findSep (c :: cs) = none) :
    SEPARATOR.isPrefixOf (c :: cs) = false ∧ findSep cs = none := by
  rw [findSep] at h
  by_cases hp : SEPARATOR.isPrefixOf (c :: cs) = true
  · rw [if_pos hp] at h; cases h
  · rw [if_neg hp] at h
    refine ⟨Bool.eq_false_iff.mpr hp, ?_⟩
    cases hcs : findSep cs with
    | none => rfl
    | some p =>
      obtain ⟨b0, a0⟩ := p
      rw [hcs] at h
      cases h

theorem findSep_sep_cons (a : RStr) : findSep ('<' :: '|' :: '>' :: a) = some ([], a) := by
  rw [findSep, if_pos ((sep_isPrefixOf_iff _).mpr ⟨a, rfl⟩)]
  simp [SEPARATOR]

/-- The heart of claim C1: the separator's first occurrence in
`filename ++ SEPARATOR ++ json` is exactly the appended one whenever the
filename itself is separator-free (`<|>` cannot straddle the boundary). -/
theorem findSep_append {b : RStr} (a : RStr) (hb : findSep b = none) :
    findSep (b ++ SEPARATOR ++ a) = some (b, a) := by
  induction b with
  | nil => simpa [SEPARATOR] using findSep_sep_cons a
  | cons c b' ih =>
    obtain ⟨hp, hb'⟩ := findSep_none_cons hb
    have hih := ih hb'
    have hkey : SEPARATOR.isPrefixOf (c :: (b' ++ SEPARATOR ++ a)) = false := by
      by_cases hq : SEPARATOR.isPrefixOf (c :: (b' ++ SEPARATOR ++ a)) = true
      · obtain ⟨t, ht⟩ := (sep_isPrefixOf_iff _).mp hq
        rcases b' with _ | ⟨d, _ | ⟨e, b''⟩⟩
        · simp [SEPARATOR, List.cons_append] at ht
        · simp [SEPARATOR, List.cons_append] at ht
        · simp only [List.cons_append, List.cons.injEq] at ht
          obtain ⟨rfl, rfl, rfl, -⟩ := ht
          rw [(sep_isPrefixOf_iff _).mpr ⟨b'', rfl⟩] at hp
          cases hp
      · exact Bool.eq_false_iff.mpr hq
    show findSep (c :: (b' ++ SEPARATOR ++ a)) = some (c :: b', a)
    rw [findSep, if_neg (by intro hq2; rw [hkey] at hq2; cases hq2)]
    rw [hih]

theorem splitSepFuel_congr : ∀ (f₁ : Nat) (s : RStr) (f₂ : Nat), s.length < f₁ → s.length < f₂ →
    splitSepFuel f₁ s = splitSepFuel f₂ s := by
  intro f₁
  induction f₁ with
  | zero => intro s f₂ h₁ _; omega
  | succ g₁ ih =>
    intro s f₂ h₁ h₂
    cases f₂ with
    | zero => omega
    | succ g₂ =>
      rw [splitSepFuel, splitSepFuel]
      cases hfs : findSep s with
      | none => rfl
      | some p =>
        obtain ⟨b, a⟩ := p
        have hlen : a.length < s.length := by
          rw [findSep_decomp hfs]
          simp only [List.length_append, SEPARATOR, List.length_cons, List.length_nil]
          omega
        show b :: splitSepFuel g₁ a = b :: splitSepFuel g₂ a
        rw [ih a g₂ (by omega) (by omega)]

theorem splitSep_of_findSep_none {s : RStr} (h : findSep s = none) : splitSep s = [s] := by
  rw [splitSep, splitSepFuel, h]

theorem splitSep_of_findSep_some {s b a : RStr} (h : findSep s = some (b, a)) :
    splitSep s = b :: splitSep a := by
  have hlen : a.length < s.length := by
    rw [findSep_decomp h]
    simp only [List.length_append, SEPARATOR, List.length_cons, List.length_nil]
    omega
  unfold splitSep
  rw [splitSepFuel, h]
  show b :: splitSepFuel s.length a = b :: splitSepFuel (a.length + 1) a
  rw [splitSepFuel_congr s.length a (a.length + 1) hlen (by omega)]

theorem splitSep_ne_nil (s : RStr) : splitSep s ≠ [] := by
  unfold splitSep
  rw [splitSepFuel]
  cases hfs : findSep s with
  | none => simp
  | some p => obtain ⟨b, a⟩ := p; simp

theorem joinSep_splitSep_aux : ∀ (n : Nat) (s : RStr), s.length ≤ n → joinSep (splitSep s) = s := by
  intro n
  induction n with
  | zero =>
    intro s hs
    have : s = [] := List.length_eq_zero.mp (Nat.le_zero.mp hs)
    subst this
    rfl
  | succ m ih =>
    intro s hs
    cases hfs : findSep s with
    | none => rw [splitSep_of_findSep_none hfs]; rfl
    | some p =>
      obtain ⟨b, a⟩ := p
      have hd := findSep_decomp hfs
      have hlen : a.length < s.length := by
        rw [hd]
        simp only [List.length_append, SEPARATOR, List.length_cons, List.length_nil]
        omega
      rw [splitSep_of_findSep_some hfs]
      obtain ⟨x, xs, hxs⟩ : ∃ x xs, splitSep a = x :: xs := by
        cases hsa : splitSep a with
        | nil => exact absurd hsa (splitSep_ne_nil a)
        | cons x xs => exact ⟨x, xs, rfl⟩
      rw [hxs]
      show b ++ SEPARATOR ++ joinSep (x :: xs) = s
      rw [← hxs, ih a (by omega)]
      exact hd.symm

/-- Splitting and rejoining all fragments restores the original string. -/
theorem joinSep_splitSep (s : RStr) : joinSep (splitSep s) = s :=
  joinSep_splitSep_aux s.length s (Nat.le_refl _)

/-! ### Decimal numbers, hexadecimal bytes and JSON string escapes

Building blocks for the canonical JSON rendering of a `KeyFile`
(spec §6): decimal integers, lowercase hex byte strings and escaped
JSON string literals, each with a parser that inverts the printer. -/

/-- The decimal digit character of `d % 10`. -/
def digitChar (d : Nat) : Char := Char.ofNat (48 + d % 10)

/-- Value of a decimal digit character. -/
def digitVal (c : Char) : Option Nat :=
  if '0' ≤ c ∧ c ≤ '9' then some (c.toNat - 48) else none

/-- Decimal rendering of a positive number, fuelled for kernel evaluation. -/
def natToStrFuel : Nat → Nat → RStr → RStr
  | 0, _, acc => acc
  | _, 0, acc => acc
  | fuel + 1, n + 1, acc => natToStrFuel fuel ((n + 1) / 10) (digitChar ((n + 1) % 10) :: acc)

/-- Decimal rendering of a natural number. -/
def natToStr (n : Nat) : RStr := if n = 0 then ['0'] else natToStrFuel n n []

/-- Consume leading decimal digits into an accumulator. -/
def parseNatAux : RStr → Nat → Nat × RStr
  | c :: cs, acc =>
    match digitVal c with
    | some d => parseNatAux cs (acc * 10 + d)
    | none => (acc, c :: cs)
  | [], acc => (acc, [])

/-- Parse a decimal number; fails when the input does not start with a digit. -/
def parseNat (s : RStr) : Option (Nat × RStr) :=
  match s with
  | c :: cs =>
    match digitVal c with
    | some _ => some (parseNatAux (c :: cs) 0)
    | none => none
  | [] => none

/-- Whether the input does not continue with a decimal digit. -/
def headNotDigit : RStr → Bool
  | [] => true
  | c :: _ => (digitVal c).isNone

theorem digitVal_digitChar : ∀ d : Nat, d < 10 → digitVal (digitChar d) = some d := by decide

theorem natToStrFuel_zero (f : Nat) (acc : RStr) : natToStrFuel f 0 acc = acc := by
  cases f <;> rfl

theorem natToStrFuel_append : ∀ (f n : Nat) (acc : RStr),
    natToStrFuel f n acc = natToStrFuel f n [] ++ acc := by
  intro f
  induction f with
  | zero => intro n acc; cases n <;> rfl
  | succ g ih =>
    intro n acc
    cases n with
    | zero => rfl
    | succ m =>
      rw [natToStrFuel, natToStrFuel]
      rw [ih ((m + 1) / 10) (digitChar ((m + 1) % 10) :: acc),
          ih ((m + 1) / 10) [digitChar ((m + 1) % 10)]]
      simp

theorem parseNatAux_stop {rest : RStr} (h : headNotDigit rest = true) (acc : Nat) :
    parseNatAux rest acc = (acc, rest) := by
  cases rest with
  | nil => rfl
  | cons c cs =>
    have hd : digitVal c = none := by
      simpa [headNotDigit, Option.isNone_iff_eq_none] using h
    rw [parseNatAux, hd]

theorem parseNatAux_natToStrFuel :
    ∀ (n : Nat), 0 < n → ∀ (f : Nat), n ≤ f → ∀ (rest : RStr) (acc : Nat),
    parseNatAux (natToStrFuel f n [] ++ rest) acc
      = parseNatAux rest (acc * 10 ^ (natToStrFuel f n []).length + n) := by
  intro n
  induction n using Nat.strong_induction_on with
  | _ n ih =>
    intro hn f hf rest acc
    obtain ⟨m, rfl⟩ : ∃ m, n = m + 1 := ⟨n - 1, by omega⟩
    obtain ⟨g, rfl⟩ : ∃ g, f = g + 1 := ⟨f - 1, by omega⟩
    rw [natToStrFuel, natToStrFuel_append]
    by_cases hq : (m + 1) / 10 = 0
    · rw [hq, natToStrFuel_zero]
      have hm : m + 1 < 10 := by omega
      have hmod : (m + 1) % 10 = m + 1 := Nat.mod_eq_of_lt hm
      show parseNatAux (digitChar ((m + 1) % 10) :: rest) acc = _
      rw [parseNatAux, digitVal_digitChar _ (by omega)]
      simp only [List.length_append, List.length_nil, List.length_cons]
      rw [hmod]
      ring_nf
    · have hqpos : 0 < (m + 1) / 10 := Nat.pos_of_ne_zero hq
      have hqlt : (m + 1) / 10 < m + 1 := Nat.div_lt_self (by omega) (by omega)
      have hqle : (m + 1) / 10 ≤ g := by omega
      rw [List.append_assoc]
      rw [ih ((m + 1) / 10) hqlt hqpos g hqle _ acc]
      show parseNatAux (digitChar ((m + 1) % 10) :: rest) _ = _
      rw [parseNatAux, digitVal_digitChar _ (by omega)]
      simp only [List.length_append, List.length_cons, List.length_nil]
      have hdm := Nat.div_add_mod (m + 1) 10
      have : (acc * 10 ^ (natToStrFuel g ((m + 1) / 10) []).length + (m + 1) / 10) * 10
            + (m + 1) % 10
          = acc * 10 ^ ((natToStrFuel g ((m + 1) / 10) []).length + (0 + 1)) + (m + 1) := by
        rw [pow_succ]
        ring_nf
        omega
      rw [this]

theorem natToStrFuel_head :
    ∀ (n : Nat), 0 < n → ∀ (f : Nat), n ≤ f → ∀ (tail : RStr),
    ∃ d t, natToStrFuel f n tail = digitChar d :: t ∧ d < 10 := by
  intro n
  induction n using Nat.strong_induction_on with
  | _ n ih =>
    intro hn f hf tail
    obtain ⟨m, rfl⟩ : ∃ m, n = m + 1 := ⟨n - 1, by omega⟩
    obtain ⟨g, rfl⟩ : ∃ g, f = g + 1 := ⟨f - 1, by omega⟩
    rw [natToStrFuel]
    by_cases hq : (m + 1) / 10 = 0
    · rw [hq, natToStrFuel_zero]
      exact ⟨(m + 1) % 10, tail, rfl, by omega⟩
    · have hqpos : 0 < (m + 1) / 10 := Nat.pos_of_ne_zero hq
      have hqlt : (m + 1) / 10 < m + 1 := Nat.div_lt_self (by omega) (by omega)
      exact ih ((m + 1) / 10) hqlt hqpos g (by omega) _

/-- Parsing inverts decimal rendering. -/
theorem parseNat_natToStr {rest : RStr} (n : Nat) (h : headNotDigit rest = true) :
    parseNat (natToStr n ++ rest) = some (n, rest) := by
  by_cases hn : n = 0
  · subst hn
    show parseNat ('0' :: rest) = some (0, rest)
    rw [parseNat]
    show some (parseNatAux ('0' :: rest) 0) = some (0, rest)
    rw [parseNatAux]
    show some (parseNatAux rest (0 * 10 + 0)) = some (0, rest)
    rw [parseNatAux_stop h]
  · have hpos : 0 < n := Nat.pos_of_ne_zero hn
    obtain ⟨d, t, hdt, hd10⟩ := natToStrFuel_head n hpos n (Nat.le_refl _) []
    have hns : natToStr n = natToStrFuel n n [] := by rw [natToStr, if_neg hn]
    rw [hns, hdt]
    show parseNat (digitChar d :: (t ++ rest)) = some (n, rest)
    rw [parseNat, digitVal_digitChar d hd10]
    show some (parseNatAux (digitChar d :: (t ++ rest)) 0) = some (n, rest)
    have : digitChar d :: (t ++ rest) = natToStrFuel n n [] ++ rest := by rw [hdt]; rfl
    rw [this, parseNatAux_natToStrFuel n hpos n (Nat.le_refl _) rest 0, parseNatAux_stop h]
    simp

/-- The lowercase hex digit character of `d % 16`, per the `CHARS` table of
`util/mod.rs` (`0123456789abcdef`). -/
def hexDigitChar (d : Nat) : Char :=
  if d % 16 < 10 then Char.ofNat (48 + d % 16) else Char.ofNat (87 + d % 16)

/-- Value of a lowercase hex digit character. -/
def hexVal (c : Char) : Option (Fin 16) :=
  if '0' ≤ c ∧ c ≤ '9' then some ⟨(c.toNat - 48) % 16, by omega⟩
  else if 'a' ≤ c ∧ c ≤ 'f' then some ⟨(c.toNat - 87) % 16, by omega⟩
  else none

/-- Two lowercase hex characters for one byte (`ToHex for [u8]` in `util/mod.rs`). -/
def byteToHex (b : Byte) : RStr := [hexDigitChar (b.val / 16), hexDigitChar (b.val % 16)]

/-- Lowercase hex rendering of a byte string. -/
def bytesToHex : List Byte → RStr
  | [] => []
  | b :: rest => byteToHex b ++ bytesToHex rest

/-- Greedily parse pairs of hex digits into bytes, stopping at the first
non-hex character; fails on an odd number of digits. -/
def parseHexBytes : RStr → Option (List Byte × RStr)
  | [] => some ([], [])
  | c :: cs =>
    match hexVal c with
    | none => some ([], c :: cs)
    | some h =>
      match cs with
      | [] => none
      | c2 :: cs2 =>
        match hexVal c2 with
        | none => none
        | some l =>
          match parseHexBytes cs2 with
          | some (bs, r) =>
            some ((⟨h.val * 16 + l.val, by have := h.isLt; have := l.isLt; omega⟩ : Byte) :: bs, r)
          | none => none

/-- Whether the input does not continue with a hex digit. -/
def headNotHex : RStr → Bool
  | [] => true
  | c :: _ => (hexVal c).isNone

theorem hexVal_hexDigitChar : ∀ d : Fin 16, hexVal (hexDigitChar d.val) = some d := by decide

/-- Parsing inverts hex rendering. -/
theorem parseHexBytes_bytesToHex :
    ∀ (bs : List Byte) {rest : RStr}, headNotHex rest = true →
    parseHexBytes (bytesToHex bs ++ rest) = some (bs, rest) := by
  intro bs
  induction bs with
  | nil =>
    intro rest h
    cases rest with
    | nil => rfl
    | cons c cs =>
      have hc : hexVal c = none := by
        simpa [headNotHex, Option.isNone_iff_eq_none] using h
      show parseHexBytes (c :: cs) = some ([], c :: cs)
      rw [parseHexBytes, hc]
  | cons b bs ih =>
    intro rest h
    have hhi : hexVal (hexDigitChar (b.val / 16)) = some ⟨b.val / 16, by have := b.isLt; omega⟩ :=
      hexVal_hexDigitChar ⟨b.val / 16, by have := b.isLt; omega⟩
    have hlo : hexVal (hexDigitChar (b.val % 16)) = some ⟨b.val % 16, by have := b.isLt; omega⟩ :=
      hexVal_hexDigitChar ⟨b.val % 16, by have := b.isLt; omega⟩
    show parseHexBytes (hexDigitChar (b.val / 16) :: (hexDigitChar (b.val % 16)
        :: (bytesToHex bs ++ rest))) = some (b :: bs, rest)
    simp only [parseHexBytes, hhi, hlo, ih h]
    have hval : (b.val / 16) * 16 + b.val % 16 = b.val := by
      have := Nat.div_add_mod b.val 16
      omega
    simp [Fin.ext_iff, hval]

/-- JSON string escaping: quote and backslash are escaped with a backslash. -/
def escapeStr : RStr → RStr
  | [] => []
  | c :: cs => if c == '"' || c == '\\' then '\\' :: c :: escapeStr cs else c :: escapeStr cs

/-- Parse a JSON string literal body up to and including the closing quote,
fuelled for kernel evaluation. -/
def parseStrLitFuel : Nat → RStr → Option (RStr × RStr)
  | 0, _ => none
  | _ + 1, [] => none
  | fuel + 1, c :: cs =>
    if c == '"' then some ([], cs)
    else if c == '\\' then
      match cs with
      | [] => none
      | d :: ds =>
        match parseStrLitFuel fuel ds with
        | some (s, r) => some (d :: s, r)
        | none => none
    else
      match parseStrLitFuel fuel cs with
      | some (s, r) => some (c :: s, r)
      | none => none

/-- Parse a JSON string literal body up to and including the closing quote. -/
def parseStrLit (s : RStr) : Option (RStr × RStr) := parseStrLitFuel s.length s

theorem escapeStr_length (s : RStr) : s.length ≤ (escapeStr s).length := by
  induction s with
  | nil => exact Nat.le_refl _
  | cons c cs ih =>
    rw [escapeStr]
    by_cases hc : (c == '"' || c == '\\') = true
    · rw [if_pos hc]; simp only [List.length_cons]; omega
    · rw [if_neg hc]; simp only [List.length_cons]; omega

theorem parseStrLitFuel_escapeStr : ∀ (s : RStr) (f : Nat) (rest : RStr), s.length < f →
    parseStrLitFuel f (escapeStr s ++ '"' :: rest) = some (s, rest) := by
  intro s
  induction s with
  | nil =>
    intro f rest hf
    obtain ⟨g, rfl⟩ : ∃ g, f = g + 1 := ⟨f - 1, by omega⟩
    rfl
  | cons c cs ih =>
    intro f rest hf
    obtain ⟨g, rfl⟩ : ∃ g, f = g + 1 := ⟨f - 1, by omega⟩
    have hcs : cs.length < g := by simp only [List.length_cons] at hf; omega
    by_cases hc : (c == '"' || c == '\\') = true
    · rw [escapeStr, if_pos hc]
      show parseStrLitFuel (g + 1) ('\\' :: (c :: (escapeStr cs ++ '"' :: rest)))
          = some (c :: cs, rest)
      simp only [parseStrLitFuel]
      rw [if_neg (by decide), if_pos (by decide)]
      rw [ih g rest hcs]
    · rw [escapeStr, if_neg hc]
      have hc2 : ((c == '"') = false) ∧ ((c == '\\') = false) := by
        constructor <;> [skip; skip] <;>
          (cases h1 : c == '"' <;> cases h2 : c == '\\' <;> simp_all)
      show parseStrLitFuel (g + 1) (c :: (escapeStr cs ++ '"' :: rest)) = some (c :: cs, rest)
      simp only [parseStrLitFuel]
      rw [if_neg (by rw [hc2.1]; exact Bool.false_ne_true),
          if_neg (by rw [hc2.2]; exact Bool.false_ne_true)]
      rw [ih g rest hcs]

/-- Parsing inverts string escaping: the literal ends at the first unescaped
quote. -/
theorem parseStrLit_escapeStr (s rest : RStr) :
    parseStrLit (escapeStr s ++ '"' :: rest) = some (s, rest) := by
  unfold parseStrLit
  apply parseStrLitFuel_escapeStr
  have h1 := escapeStr_length s
  simp only [List.length_append, List.length_cons]
  omega

/-- Match an exact literal and drop it. -/
def expectLit (lit s : RStr) : Option RStr :=
  if lit.isPrefixOf s then some (s.drop lit.length) else none

theorem expectLit_append (lit rest : RStr) : expectLit lit (lit ++ rest) = some rest := by
  unfold expectLit
  rw [if_pos (List.isPrefixOf_iff_prefix.mpr (List.prefix_append lit rest))]
  rw [List.drop_left]

/-! ### The KeyFile value object and its canonical JSON codec -/

/-- Modelled from the spec (§3): KDF parameters, scrypt `n,r,p` or PBKDF2 `c`;
the `Kdf` enum of the keystore module is not under `src/`.  The PBKDF2 `prf`
is fixed to `hmac-sha256` and therefore not carried. -/
inductive Kdf
  | Scrypt (n r p : Nat)
  | Pbkdf2 (c : Nat)
deriving DecidableEq

/-- An Ethereum address: raw bytes (20 in the source; the length is not
enforced by this embedding). -/
structure Address where
  bytes : List Byte
deriving DecidableEq

/-- Modelled from the spec (§3): the `KeyFile` value object of the keystore
module, which is not under `src/`.  `address` is non-optional because
`DbStorage::put` in `db.rs` uses it directly as the DB key. -/
structure KeyFile where
  uuid : RStr
  address : Address
  dk_length : Nat
  kdf : Kdf
  kdf_salt : List Byte
  cipher_iv : List Byte
  cipher_text : List Byte
  keccak256_mac : List Byte
  name : Option RStr
  description : Option RStr
  visible : Option Bool
  meta : Option RStr
deriving DecidableEq

/-- Error kinds of the storage layer (`storage/keyfile/error.rs`, surfaced by
`db.rs`): missing records, JSON decode failures and DB failures. -/
inductive Error
  | NotFound (msg : String)
  | InvalidJson
  | IoError (msg : String)
deriving DecidableEq

/-! Fixed fragments of the canonical JSON rendering (spec §6). -/

/-- JSON fragment of the canonical `KeyFile` rendering. -/
def litHead : RStr := ['\x7b', '\"', 'v', 'e', 'r', 's', 'i', 'o', 'n', '\"', ':', '3', ',', '\"', 'i', 'd', '\"', ':', '\"']

/-- JSON fragment of the canonical `KeyFile` rendering. -/
def litAddr : RStr := [',', '\"', 'a', 'd', 'd', 'r', 'e', 's', 's', '\"', ':', '\"']

/-- JSON fragment of the canonical `KeyFile` rendering. -/
def litName : RStr := ['\"', ',', '\"', 'n', 'a', 'm', 'e', '\"', ':']

/-- JSON fragment of the canonical `KeyFile` rendering. -/
def litDesc : RStr := [',', '\"', 'd', 'e', 's', 'c', 'r', 'i', 'p', 't', 'i', 'o', 'n', '\"', ':']

/-- JSON fragment of the canonical `KeyFile` rendering. -/
def litVisible : RStr := [',', '\"', 'v', 'i', 's', 'i', 'b', 'l', 'e', '\"', ':']

/-- JSON fragment of the canonical `KeyFile` rendering. -/
def litMeta : RStr := [',', '\"', 'm', 'e', 't', 'a', '\"', ':']

/-- JSON fragment of the canonical `KeyFile` rendering. -/
def litCrypto : RStr := [',', '\"', 'c', 'r', 'y', 'p', 't', 'o', '\"', ':', '\x7b', '\"', 'c', 'i', 'p', 'h', 'e', 'r', '\"', ':', '\"', 'a', 'e', 's', '-', '1', '2', '8', '-', 'c', 't', 'r', '\"', ',', '\"', 'c', 'i', 'p', 'h', 'e', 'r', 'p', 'a', 'r', 'a', 'm', 's', '\"', ':', '\x7b', '\"', 'i', 'v', '\"', ':', '\"']

/-- JSON fragment of the canonical `KeyFile` rendering. -/
def litCiphertext : RStr := ['\"', '\x7d', ',', '\"', 'c', 'i', 'p', 'h', 'e', 'r', 't', 'e', 'x', 't', '\"', ':', '\"']

/-- JSON fragment of the canonical `KeyFile` rendering. -/
def litKdf : RStr := ['\"', ',', '\"', 'k', 'd', 'f', '\"', ':']

/-- JSON fragment of the canonical `KeyFile` rendering. -/
def litScrypt : RStr := ['\"', 's', 'c', 'r', 'y', 'p', 't', '\"', ',', '\"', 'k', 'd', 'f', 'p', 'a', 'r', 'a', 'm', 's', '\"', ':', '\x7b', '\"', 'd', 'k', 'l', 'e', 'n', '\"', ':']

/-- JSON fragment of the canonical `KeyFile` rendering. -/
def litPbkdf2 : RStr := ['\"', 'p', 'b', 'k', 'd', 'f', '2', '\"', ',', '\"', 'k', 'd', 'f', 'p', 'a', 'r', 'a', 'm', 's', '\"', ':', '\x7b', '\"', 'd', 'k', 'l', 'e', 'n', '\"', ':']

/-- JSON fragment of the canonical `KeyFile` rendering. -/
def litSalt : RStr := [',', '\"', 's', 'a', 'l', 't', '\"', ':', '\"']

/-- JSON fragment of the canonical `KeyFile` rendering. -/
def litN : RStr := ['\"', ',', '\"', 'n', '\"', ':']

/-- JSON fragment of the canonical `KeyFile` rendering. -/
def litR : RStr := [',', '\"', 'r', '\"', ':']

/-- JSON fragment of the canonical `KeyFile` rendering. -/
def litP : RStr := [',', '\"', 'p', '\"', ':']

/-- JSON fragment of the canonical `KeyFile` rendering. -/
def litC : RStr := ['\"', ',', '\"', 'c', '\"', ':']

/-- JSON fragment of the canonical `KeyFile` rendering. -/
def litPrf : RStr := [',', '\"', 'p', 'r', 'f', '\"', ':', '\"', 'h', 'm', 'a', 'c', '-', 's', 'h', 'a', '2', '5', '6', '\"']

/-- JSON fragment of the canonical `KeyFile` rendering. -/
def litMac : RStr := ['\x7d', ',', '\"', 'm', 'a', 'c', '\"', ':', '\"']

/-- JSON fragment of the canonical `KeyFile` rendering. -/
def litEnd : RStr := ['\"', '\x7d', '\x7d']

/-- JSON fragment of the canonical `KeyFile` rendering. -/
def litNull : RStr := ['n', 'u', 'l', 'l']

/-- JSON fragment of the canonical `KeyFile` rendering. -/
def litTrue : RStr := ['t', 'r', 'u', 'e']

/-- JSON fragment of the canonical `KeyFile` rendering. -/
def litFalse : RStr := ['f', 'a', 'l', 's', 'e']

/-- A JSON string value or `null` for an absent optional string. -/
def optStrJson : Option RStr → RStr
  | none => litNull
  | some s => '"' :: (escapeStr s ++ ['"'])

/-- A JSON boolean value or `null` for an absent optional boolean. -/
def boolJson : Option Bool → RStr
  | none => litNull
  | some true => litTrue
  | some false => litFalse

/-- The `"kdf"`/`"kdfparams"` fragment for a KDF with the derived-key length
and salt (spec §6). -/
def kdfJson : Kdf → Nat → List Byte → RStr
  | .Scrypt n r p, dklen, salt =>
    litScrypt ++ natToStr dklen ++ litSalt ++ bytesToHex salt ++ litN ++ natToStr n
      ++ litR ++ natToStr r ++ litP ++ natToStr p
  | .Pbkdf2 c, dklen, salt =>
    litPbkdf2 ++ natToStr dklen ++ litSalt ++ bytesToHex salt ++ litC ++ natToStr c ++ litPrf

/-- Modelled from the spec (§6): `json::encode` of a `KeyFile` — the canonical
version-3 JSON rendering; the codec of the keystore module is not under
`src/`.  Absent optional fields are canonicalized to JSON `null`. -/
def KeyFile.encode (kf : KeyFile) : RStr :=
  litHead ++ escapeStr kf.uuid ++ '"' :: (litAddr ++ bytesToHex kf.address.bytes
    ++ litName ++ optStrJson kf.name
    ++ litDesc ++ optStrJson kf.description
    ++ litVisible ++ boolJson kf.visible
    ++ litMeta ++ optStrJson kf.meta
    ++ litCrypto ++ bytesToHex kf.cipher_iv
    ++ litCiphertext ++ bytesToHex kf.cipher_text
    ++ litKdf ++ kdfJson kf.kdf kf.dk_length kf.kdf_salt
    ++ litMac ++ bytesToHex kf.keccak256_mac ++ litEnd)

/-- Parse a JSON string value or `null`. -/
def parseOptStr (s : RStr) : Option (Option RStr × RStr) :=
  match expectLit litNull s with
  | some r => some (none, r)
  | none =>
    match s with
    | c :: cs =>
      if c == '"' then (parseStrLit cs).bind fun p => some (some p.1, p.2) else none
    | [] => none

/-- Parse a JSON boolean value or `null`. -/
def parseOptBool (s : RStr) : Option (Option Bool × RStr) :=
  match expectLit litNull s with
  | some r => some (none, r)
  | none =>
    match expectLit litTrue s with
    | some r => some (some true, r)
    | none =>
      match expectLit litFalse s with
      | some r => some (some false, r)
      | none => none

/-- Parse the `"kdf"`/`"kdfparams"` fragment. -/
def parseKdf (s : RStr) : Option ((Kdf × Nat × List Byte) × RStr) :=
  match expectLit litScrypt s with
  | some s1 =>
    (parseNat s1).bind fun p1 =>
    (expectLit litSalt p1.2).bind fun s3 =>
    (parseHexBytes s3).bind fun p2 =>
    (expectLit litN p2.2).bind fun s5 =>
    (parseNat s5).bind fun p3 =>
    (expectLit litR p3.2).bind fun s7 =>
    (parseNat s7).bind fun p4 =>
    (expectLit litP p4.2).bind fun s9 =>
    (parseNat s9).bind fun p5 =>
    some ((Kdf.Scrypt p3.1 p4.1 p5.1, p1.1, p2.1), p5.2)
  | none =>
    match expectLit litPbkdf2 s with
    | some s1 =>
      (parseNat s1).bind fun p1 =>
      (expectLit litSalt p1.2).bind fun s3 =>
      (parseHexBytes s3).bind fun p2 =>
      (expectLit litC p2.2).bind fun s5 =>
      (parseNat s5).bind fun p3 =>
      (expectLit litPrf p3.2).bind fun s7 =>
      some ((Kdf.Pbkdf2 p3.1, p1.1, p2.1), s7)
    | none => none

/-- Parse the `"crypto"` object of a canonical `KeyFile` JSON rendering:
iv, ciphertext, KDF parameters and MAC. -/
def parseCrypto (s : RStr) :
    Option ((List Byte × List Byte × (Kdf × Nat × List Byte) × List Byte) × RStr) :=
  (parseHexBytes s).bind fun (pi2 : List Byte × RStr) =>
  (expectLit litCiphertext pi2.2).bind fun (s15 : RStr) =>
  (parseHexBytes s15).bind fun (pc : List Byte × RStr) =>
  (expectLit litKdf pc.2).bind fun (s17 : RStr) =>
  (parseKdf s17).bind fun (pk : (Kdf × Nat × List Byte) × RStr) =>
  (expectLit litMac pk.2).bind fun (s19 : RStr) =>
  (parseHexBytes s19).bind fun (pmac : List Byte × RStr) =>
  (expectLit litEnd pmac.2).bind fun (s21 : RStr) =>
  some ((pi2.1, pc.1, pk.1, pmac.1), s21)

/-- Parse the optional user fields of a canonical `KeyFile` JSON rendering:
name, description, visible and meta. -/
def parseUserFields (s : RStr) :
    Option ((Option RStr × Option RStr × Option Bool × Option RStr) × RStr) :=
  (parseOptStr s).bind fun (pn : Option RStr × RStr) =>
  (expectLit litDesc pn.2).bind fun (s7 : RStr) =>
  (parseOptStr s7).bind fun (pd : Option RStr × RStr) =>
  (expectLit litVisible pd.2).bind fun (s9 : RStr) =>
  (parseOptBool s9).bind fun (pv : Option Bool × RStr) =>
  (expectLit litMeta pv.2).bind fun (s11 : RStr) =>
  (parseOptStr s11).bind fun (pm : Option RStr × RStr) =>
  (expectLit litCrypto pm.2).bind fun (s13 : RStr) =>
  some ((pn.1, pd.1, pv.1, pm.1), s13)

/-- Parse a canonical `KeyFile` JSON rendering. -/
def parseKeyFile (s : RStr) : Option (KeyFile × RStr) :=
  (expectLit litHead s).bind fun (s1 : RStr) =>
  (parseStrLit s1).bind fun (pu : RStr × RStr) =>
  (expectLit litAddr pu.2).bind fun (s3 : RStr) =>
  (parseHexBytes s3).bind fun (pa : List Byte × RStr) =>
  (expectLit litName pa.2).bind fun (s5 : RStr) =>
  (parseUserFields s5).bind
    fun (pu2 : (Option RStr × Option RStr × Option Bool × Option RStr) × RStr) =>
  (parseCrypto pu2.2).bind
    fun (pc2 : (List Byte × List Byte × (Kdf × Nat × List Byte) × List Byte) × RStr) =>
  some ({ uuid := pu.1, address := ⟨pa.1⟩, dk_length := pc2.1.2.2.1.2.1,
          kdf := pc2.1.2.2.1.1, kdf_salt := pc2.1.2.2.1.2.2, cipher_iv := pc2.1.1,
          cipher_text := pc2.1.2.1, keccak256_mac := pc2.1.2.2.2,
          name := pu2.1.1, description := pu2.1.2.1, visible := pu2.1.2.2.1,
          meta := pu2.1.2.2.2 }, pc2.2)

/-- Modelled from the spec (§6): `KeyFile::decode` — parse the canonical JSON,
rejecting trailing garbage; the codec of the keystore module is not under
`src/`. -/
def KeyFile.decode (s : RStr) : Except Error KeyFile :=
  match parseKeyFile s with
  | some (kf, []) => .ok kf
  | _ => .error .InvalidJson

/-! ### Roundtrip of the canonical JSON codec -/

theorem expectLit_of_not_prefix {lit s : RStr} (h : lit.isPrefixOf s = false) :
    expectLit lit s = none := by
  unfold expectLit
  rw [if_neg]
  intro hp
  rw [h] at hp
  cases hp

theorem headNotDigit_litSalt (X : RStr) : headNotDigit (litSalt ++ X) = true := rfl

theorem headNotDigit_litR (X : RStr) : headNotDigit (litR ++ X) = true := rfl

theorem headNotDigit_litP (X : RStr) : headNotDigit (litP ++ X) = true := rfl

theorem headNotDigit_litC (X : RStr) : headNotDigit (litC ++ X) = true := rfl

theorem headNotDigit_litPrf (X : RStr) : headNotDigit (litPrf ++ X) = true := rfl

theorem headNotDigit_litMac (X : RStr) : headNotDigit (litMac ++ X) = true := rfl

theorem headNotHex_litName (X : RStr) : headNotHex (litName ++ X) = true := rfl

theorem headNotHex_litN (X : RStr) : headNotHex (litN ++ X) = true := rfl

theorem headNotHex_litC (X : RStr) : headNotHex (litC ++ X) = true := rfl

theorem headNotHex_litCiphertext (X : RStr) : headNotHex (litCiphertext ++ X) = true := rfl

theorem headNotHex_litKdf (X : RStr) : headNotHex (litKdf ++ X) = true := rfl

theorem headNotHex_litEnd (X : RStr) : headNotHex (litEnd ++ X) = true := rfl

theorem expectLit_litScrypt_pbkdf2 (X : RStr) : expectLit litScrypt (litPbkdf2 ++ X) = none := rfl

theorem isPrefixOf_cons_ne {a b : Char} (h : (a == b) = false) (l s : RStr) :
    List.isPrefixOf (a :: l) (b :: s) = false := by
  rw [List.isPrefixOf_cons₂, h, Bool.false_and]

theorem isPrefixOf_cons₂_ne {a : Char} {b c : Char} (h : (b == c) = false) (l s : RStr) :
    List.isPrefixOf (a :: b :: l) (a :: c :: s) = false := by
  rw [List.isPrefixOf_cons₂, List.isPrefixOf_cons₂, h, Bool.false_and, Bool.and_false]

theorem expectLit_litNull_quote (X : RStr) : expectLit litNull ('"' :: X) = none :=
  expectLit_of_not_prefix (isPrefixOf_cons_ne (by decide) _ _)

theorem expectLit_litNull_litTrue (X : RStr) : expectLit litNull (litTrue ++ X) = none := by
  simp only [litNull, litTrue, List.cons_append]
  exact expectLit_of_not_prefix (isPrefixOf_cons_ne (by decide) _ _)

theorem expectLit_litNull_litFalse (X : RStr) : expectLit litNull (litFalse ++ X) = none := by
  simp only [litNull, litFalse, List.cons_append]
  exact expectLit_of_not_prefix (isPrefixOf_cons_ne (by decide) _ _)

theorem expectLit_litTrue_litFalse (X : RStr) : expectLit litTrue (litFalse ++ X) = none := by
  simp only [litTrue, litFalse, List.cons_append]
  exact expectLit_of_not_prefix (isPrefixOf_cons_ne (by decide) _ _)

theorem parseOptStr_optStrJson (o : Option RStr) (rest : RStr) :
    parseOptStr (optStrJson o ++ rest) = some (o, rest) := by
  cases o with
  | none =>
    show parseOptStr (litNull ++ rest) = some (none, rest)
    simp only [parseOptStr, expectLit_append]
  | some s =>
    show parseOptStr (('"' :: (escapeStr s ++ ['"'])) ++ rest) = some (some s, rest)
    have hsh : ('"' :: (escapeStr s ++ ['"'])) ++ rest = '"' :: (escapeStr s ++ '"' :: rest) := by
      simp
    rw [hsh]
    simp only [parseOptStr, expectLit_litNull_quote, parseStrLit_escapeStr, Option.some_bind,
      beq_self_eq_true, if_true]

theorem parseOptBool_boolJson (o : Option Bool) (rest : RStr) :
    parseOptBool (boolJson o ++ rest) = some (o, rest) := by
  cases o with
  | none =>
    show parseOptBool (litNull ++ rest) = some (none, rest)
    simp only [parseOptBool, expectLit_append]
  | some b =>
    cases b with
    | true =>
      show parseOptBool (litTrue ++ rest) = some (some true, rest)
      simp only [parseOptBool, expectLit_litNull_litTrue, expectLit_append]
    | false =>
      show parseOptBool (litFalse ++ rest) = some (some false, rest)
      simp only [parseOptBool, expectLit_litNull_litFalse, expectLit_litTrue_litFalse,
        expectLit_append]

theorem parseKdf_kdfJson (kdf : Kdf) (dklen : Nat) (salt : List Byte) (rest : RStr)
    (hrest : headNotDigit rest = true) :
    parseKdf (kdfJson kdf dklen salt ++ rest) = some ((kdf, dklen, salt), rest) := by
  cases kdf with
  | Scrypt n r p =>
    simp only [kdfJson, List.append_assoc]
    simp only [parseKdf, expectLit_append, Option.some_bind, parseNat_natToStr,
      parseHexBytes_bytesToHex, headNotDigit_litSalt, headNotDigit_litR, headNotDigit_litP,
      headNotHex_litN, hrest]
  | Pbkdf2 c =>
    simp only [kdfJson, List.append_assoc]
    simp only [parseKdf, expectLit_litScrypt_pbkdf2, expectLit_append, Option.some_bind,
      parseNat_natToStr, parseHexBytes_bytesToHex, headNotDigit_litSalt, headNotDigit_litC,
      headNotDigit_litPrf, headNotHex_litC]

theorem parseCrypto_encode (iv ct salt mac : List Byte) (kdf : Kdf) (dklen : Nat) (rest : RStr) :
    parseCrypto (bytesToHex iv ++ (litCiphertext ++ (bytesToHex ct ++ (litKdf
      ++ (kdfJson kdf dklen salt ++ (litMac ++ (bytesToHex mac ++ (litEnd ++ rest))))))))
      = some ((iv, ct, (kdf, dklen, salt), mac), rest) := by
  simp only [parseCrypto, parseHexBytes_bytesToHex, headNotHex_litCiphertext,
    headNotHex_litKdf, headNotHex_litEnd, expectLit_append, Option.some_bind,
    parseKdf_kdfJson, headNotDigit_litMac]

theorem parseUserFields_encode (name desc : Option RStr) (vis : Option Bool)
    (meta : Option RStr) (rest : RStr) :
    parseUserFields (optStrJson name ++ (litDesc ++ (optStrJson desc ++ (litVisible
      ++ (boolJson vis ++ (litMeta ++ (optStrJson meta ++ (litCrypto ++ rest))))))))
      = some ((name, desc, vis, meta), rest) := by
  simp only [parseUserFields, parseOptStr_optStrJson, Option.some_bind, expectLit_append,
    parseOptBool_boolJson]

theorem parseKeyFile_encode (kf : KeyFile) (rest : RStr) :
    parseKeyFile (KeyFile.encode kf ++ rest) = some (kf, rest) := by
  obtain ⟨uuid, ⟨addrBytes⟩, dkl, kdf, salt, iv, ct, mac, name, desc, vis, meta⟩ := kf
  simp only [KeyFile.encode, List.append_assoc, List.cons_append, List.singleton_append]
  simp only [parseKeyFile, expectLit_append, Option.some_bind, parseStrLit_escapeStr,
    parseHexBytes_bytesToHex, headNotHex_litName, parseUserFields_encode, parseCrypto_encode]

/-- The codec roundtrip of spec §8: `decode(encode(k)) == k`. -/
theorem decode_encode (kf : KeyFile) : KeyFile.decode (KeyFile.encode kf) = .ok kf := by
  unfold KeyFile.decode
  have h := parseKeyFile_encode kf []
  rw [List.append_nil] at h
  rw [h]

/-! ### The KV-DB keyfile storage (`db.rs`) -/

/-- Modelled from the spec (§4.4): `generate_filename` of the keyfile storage
module (not under `src/`): the filename convention
`UTC--<ISO8601-with-dashes>--<uuid>`; the timestamp comes from the clock and
is threaded through the storage state. -/
def generate_filename (time uuid : RStr) : RStr :=
  "UTC--".data ++ time ++ "--".data ++ uuid

/-- The rocksdb key-value store of `DbStorage`, modelled as an association
list from address keys to UTF-8 values, together with the clock used for
generated filenames. -/
structure DbState where
  db : List (Address × RStr)
  now : RStr
deriving DecidableEq

/-- rocksdb `get`. -/
def dbGet : List (Address × RStr) → Address → Option RStr
  | [], _ => none
  | (k, v) :: rest, addr => if k = addr then some v else dbGet rest addr

/-- rocksdb `put`: replace the value under an existing key, or add the key. -/
def dbPutRaw : List (Address × RStr) → Address → RStr → List (Address × RStr)
  | [], addr, v => [(addr, v)]
  | (k, w) :: rest, addr, v =>
    if k = addr then (addr, v) :: rest else (k, w) :: dbPutRaw rest addr v

/-- rocksdb `delete`: drop the key if present; succeeds either way. -/
def dbDelete (l : List (Address × RStr)) (addr : Address) : List (Address × RStr) :=
  l.filter (fun e => !(decide (e.1 = addr)))

/-- `DbStorage::split` (`db.rs` lines 54-67): split the stored value on the
separator; the filename is `arr[0]` and the json rejoins `arr[1..]` with the
separator; a missing value is `NotFound`. -/
def DbStorage.split (bytes : Option RStr) : Except Error (RStr × RStr) :=
  match bytes with
  | none => .error (.NotFound "Can't extract filename")
  | some v =>
    let arr := splitSep v
    .ok (arr.headD [], joinSep (arr.drop 1))

/-- `KeyfileStorage::put` for `DbStorage` (`db.rs` lines 71-77): store
`generate_filename(uuid) + SEPARATOR + json` under the address key. -/
def DbStorage.put (st : DbState) (kf : KeyFile) : Except Error DbState :=
  let json := KeyFile.encode kf
  let val := generate_filename st.now kf.uuid ++ SEPARATOR ++ json
  .ok { st with db := dbPutRaw st.db kf.address val }

/-- `KeyfileStorage::delete` for `DbStorage` (`db.rs` lines 79-83): the
underlying `db.delete` succeeds whether or not the key is present. -/
def DbStorage.delete (st : DbState) (addr : Address) : Except Error DbState :=
  .ok { st with db := dbDelete st.db addr }

/-- `KeyfileStorage::search_by_address` for `DbStorage` (`db.rs` lines 85-94):
fetch, split, decode; decode failures propagate. -/
def DbStorage.search_by_address (st : DbState) (addr : Address) : Except Error KeyFile :=
  match DbStorage.split (dbGet st.db addr) with
  | .error e => .error e
  | .ok pr => KeyFile.decode pr.2

/-- `KeyfileStorage::hide` for `DbStorage` (`db.rs` lines 96-103): read, set
`visible = Some(false)`, put back, return `Ok(true)` unconditionally. -/
def DbStorage.hide (st : DbState) (addr : Address) : Except Error (Bool × DbState) :=
  match DbStorage.search_by_address st addr with
  | .error e => .error e
  | .ok kf =>
    match DbStorage.put st { kf with visible := some false } with
    | .error e => .error e
    | .ok st2 => .ok (true, st2)

/-- `KeyfileStorage::unhide` for `DbStorage` (`db.rs` lines 105-112): read,
set `visible = Some(true)`, put back, return `Ok(true)` unconditionally. -/
def DbStorage.unhide (st : DbState) (addr : Address) : Except Error (Bool × DbState) :=
  match DbStorage.search_by_address st addr with
  | .error e => .error e
  | .ok kf =>
    match DbStorage.put st { kf with visible := some true } with
    | .error e => .error e
    | .ok st2 => .ok (true, st2)

/-- Modelled from the spec (§3): the `AccountInfo` listing projection
(address, name, description, visible, filename); the type is not under
`src/`. -/
structure AccountInfo where
  address : Address
  name : Option RStr
  description : Option RStr
  visible : Option Bool
  filename : RStr
deriving DecidableEq

/-- Modelled from the spec (§3): `AccountInfo::from(KeyFile)` copies the
projection fields; the filename is filled in by the caller. -/
def AccountInfo.fromKeyFile (kf : KeyFile) : AccountInfo :=
  { address := kf.address, name := kf.name, description := kf.description,
    visible := kf.visible, filename := [] }

/-- Loop of `KeyfileStorage::list_accounts` for `DbStorage` (`db.rs` lines
114-142) over the remaining DB entries: split each value, decode the json,
keep the record when `visible` is absent or `true` or `show_hidden` is set,
and skip records whose json fails to decode. -/
def list_accounts_aux : List (Address × RStr) → Bool → Except Error (List AccountInfo)
  | [], _ => .ok []
  | (_, val) :: rest, show_hidden =>
    match DbStorage.split (some val) with
    | .error e => .error e
    | .ok pr =>
      match KeyFile.decode pr.2 with
      | .ok kf =>
        match list_accounts_aux rest show_hidden with
        | .error e => .error e
        | .ok accounts =>
          if kf.visible.isNone || kf.visible.getD false || show_hidden then
            .ok ({ AccountInfo.fromKeyFile kf with filename := pr.1 } :: accounts)
          else
            .ok accounts
      | .error _ => list_accounts_aux rest show_hidden

/-- `KeyfileStorage::list_accounts` for `DbStorage`. -/
def DbStorage.list_accounts (st : DbState) (show_hidden : Bool) :
    Except Error (List AccountInfo) :=
  list_accounts_aux st.db show_hidden

/-- The addresses logged via `info!` by `list_accounts` when a record fails
JSON decoding (`db.rs` lines 130-136); the log side effect is modelled as the
list of logged addresses. -/
def list_logged_aux : List (Address × RStr) → List Address
  | [] => []
  | (addr, val) :: rest =>
    match DbStorage.split (some val) with
    | .error _ => list_logged_aux rest
    | .ok pr =>
      match KeyFile.decode pr.2 with
      | .ok _ => list_logged_aux rest
      | .error _ => addr :: list_logged_aux rest

/-- The log of one `list_accounts` pass over the storage. -/
def DbStorage.list_logged (st : DbState) : List Address := list_logged_aux st.db

/-- `KeyfileStorage::update` for `DbStorage` (`db.rs` lines 144-161): read,
overwrite only the supplied fields, put back. -/
def DbStorage.update (st : DbState) (addr : Address) (name desc : Option RStr) :
    Except Error DbState :=
  match DbStorage.search_by_address st addr with
  | .error e => .error e
  | .ok kf =>
    let kf1 := if name.isSome then { kf with name := name } else kf
    let kf2 := if desc.isSome then { kf1 with description := desc } else kf1
    DbStorage.put st kf2

/-- Whether a stored DB entry would decode to a `KeyFile` in `list_accounts`. -/
def entryDecodable (e : Address × RStr) : Bool :=
  match DbStorage.split (some e.2) with
  | .error _ => false
  | .ok pr =>
    match KeyFile.decode pr.2 with
    | .ok _ => true
    | .error _ => false

/-! ### Storage-layer lemmas -/

theorem hasSep_false_findSep {s : RStr} (hf : hasSep s = false) : findSep s = none := by
  unfold hasSep at hf
  cases h : findSep s with
  | none => rfl
  | some p => rw [h] at hf; simp at hf

/-- Splitting `filename ++ SEPARATOR ++ json` recovers the pair exactly when
the filename is separator-free, whatever the json contains. -/
theorem split_sep_value {filename : RStr} (json : RStr) (hf : hasSep filename = false) :
    DbStorage.split (some (filename ++ SEPARATOR ++ json)) = .ok (filename, json) := by
  have hsplit := findSep_append json (hasSep_false_findSep hf)
  show Except.ok ((splitSep (filename ++ SEPARATOR ++ json)).headD [],
      joinSep ((splitSep (filename ++ SEPARATOR ++ json)).drop 1)) = _
  rw [splitSep_of_findSep_some hsplit]
  simp only [List.headD_cons, List.drop_succ_cons, List.drop_zero, joinSep_splitSep]

theorem dbGet_dbPutRaw (l : List (Address × RStr)) (addr : Address) (v : RStr) :
    dbGet (dbPutRaw l addr v) addr = some v := by
  induction l with
  | nil => simp [dbPutRaw, dbGet]
  | cons e rest ih =>
    obtain ⟨k, w⟩ := e
    by_cases hk : k = addr
    · subst hk; simp [dbPutRaw, dbGet]
    · simp only [dbPutRaw, if_neg hk, dbGet, ih]

theorem mem_dbPutRaw (l : List (Address × RStr)) (addr : Address) (v : RStr) :
    (addr, v) ∈ dbPutRaw l addr v := by
  induction l with
  | nil => simp [dbPutRaw]
  | cons e rest ih =>
    obtain ⟨k, w⟩ := e
    by_cases hk : k = addr
    · subst hk; simp [dbPutRaw]
    · simp only [dbPutRaw, if_neg hk]
      exact List.mem_cons_of_mem _ ih

/-- The raw value `put` stores for a record: generated filename, separator,
encoded json. -/
def putValue (st : DbState) (kf : KeyFile) : RStr :=
  generate_filename st.now kf.uuid ++ SEPARATOR ++ KeyFile.encode kf

/-- The storage state after `put`. -/
def putState (st : DbState) (kf : KeyFile) : DbState :=
  { st with db := dbPutRaw st.db kf.address (putValue st kf) }

/-- `put` always succeeds and stores the generated filename, the separator and
the encoded json under the record's address. -/
theorem put_eq (st : DbState) (kf : KeyFile) :
    DbStorage.put st kf = .ok (putState st kf) := rfl

theorem dbGet_putState (st : DbState) (kf : KeyFile) :
    dbGet (putState st kf).db kf.address = some (putValue st kf) :=
  dbGet_dbPutRaw _ _ _

/-- Reading back a freshly written record succeeds and returns it unchanged. -/
theorem search_after_put (st : DbState) (kf : KeyFile)
    (hf : hasSep (generate_filename st.now kf.uuid) = false) :
    DbStorage.search_by_address (putState st kf) kf.address = .ok kf := by
  unfold DbStorage.search_by_address
  rw [dbGet_putState]
  rw [show putValue st kf = generate_filename st.now kf.uuid ++ SEPARATOR ++ KeyFile.encode kf
      from rfl]
  rw [split_sep_value _ hf]
  show KeyFile.decode (KeyFile.encode kf) = .ok kf
  exact decode_encode kf

/-- `search_by_address` on an absent key is `NotFound`. -/
theorem search_absent (st : DbState) (addr : Address) (h : dbGet st.db addr = none) :
    DbStorage.search_by_address st addr = .error (.NotFound "Can't extract filename") := by
  unfold DbStorage.search_by_address
  rw [h]
  rfl

/-- The listing loop never returns an error. -/
theorem list_accounts_aux_ok (l : List (Address × RStr)) (sh : Bool) :
    ∃ accs, list_accounts_aux l sh = .ok accs := by
  induction l with
  | nil => exact ⟨[], rfl⟩
  | cons e rest ih =>
    obtain ⟨k, v⟩ := e
    obtain ⟨accs, haccs⟩ := ih
    show (∃ a, (match KeyFile.decode (joinSep ((splitSep v).drop 1)) with
      | .ok kf =>
        match list_accounts_aux rest sh with
        | .error e => .error e
        | .ok accounts =>
          if kf.visible.isNone || kf.visible.getD false || sh then
            Except.ok ({ AccountInfo.fromKeyFile kf with filename := (splitSep v).headD [] }
              :: accounts)
          else
            .ok accounts
      | .error _ => list_accounts_aux rest sh) = Except.ok a)
    cases hdec : KeyFile.decode (joinSep ((splitSep v).drop 1)) with
    | ok kf =>
      rw [haccs]
      cases hvis : (kf.visible.isNone || kf.visible.getD false || sh) with
      | true =>
        refine ⟨{ AccountInfo.fromKeyFile kf with filename := (splitSep v).headD [] }
          :: accs, ?_⟩
        simp [hvis]
      | false =>
        refine ⟨accs, ?_⟩
        simp [hvis]
    | error e2 => exact ⟨accs, haccs⟩

theorem split_some (v : RStr) :
    DbStorage.split (some v)
      = .ok ((splitSep v).headD [], joinSep ((splitSep v).drop 1)) := rfl

/-- Every DB entry that splits, decodes and passes the visibility test
contributes its projection (with the stored filename) to the listing. -/
theorem list_accounts_aux_mem :
    ∀ (l : List (Address × RStr)) (sh : Bool) {addr : Address} {val : RStr},
    (addr, val) ∈ l →
    ∀ {f j : RStr}, DbStorage.split (some val) = .ok (f, j) →
    ∀ {kf : KeyFile}, KeyFile.decode j = .ok kf →
    (kf.visible.isNone || kf.visible.getD false || sh) = true →
    ∀ {accs : List AccountInfo}, list_accounts_aux l sh = .ok accs →
    { AccountInfo.fromKeyFile kf with filename := f } ∈ accs := by
  intro l
  induction l with
  | nil => intro sh addr val hmem; cases hmem
  | cons e rest ih =>
    obtain ⟨k, v⟩ := e
    intro sh addr val hmem f j hsplit kf hdec hvis accs haccs
    simp only [list_accounts_aux, split_some] at haccs
    rcases List.mem_cons.mp hmem with heq | hmem'
    · obtain ⟨rfl, rfl⟩ : addr = k ∧ val = v := by
        simpa [Prod.mk.injEq] using heq
      rw [split_some] at hsplit
      simp only [Except.ok.injEq, Prod.mk.injEq] at hsplit
      obtain ⟨hf, hj⟩ := hsplit
      rw [← hj] at hdec
      rw [hdec] at haccs
      obtain ⟨accs2, haccs2⟩ := list_accounts_aux_ok rest sh
      rw [haccs2] at haccs
      simp only [hvis, if_true] at haccs
      have : { AccountInfo.fromKeyFile kf with filename := (splitSep val).headD [] } :: accs2
          = accs := by
        simpa using haccs
      rw [← this, ← hf]
      exact List.mem_cons_self _ _
    · cases hdec2 : KeyFile.decode (joinSep ((splitSep v).drop 1)) with
      | ok kf2 =>
        rw [hdec2] at haccs
        obtain ⟨accs2, haccs2⟩ := list_accounts_aux_ok rest sh
        rw [haccs2] at haccs
        cases hvis2 : (kf2.visible.isNone || kf2.visible.getD false || sh) with
        | true =>
          simp only [hvis2, if_true] at haccs
          have hmem2 := ih sh hmem' hsplit hdec hvis haccs2
          have : { AccountInfo.fromKeyFile kf2 with filename := (splitSep v).headD [] } :: accs2
              = accs := by simpa using haccs
          rw [← this]
          exact List.mem_cons_of_mem _ hmem2
        | false =>
          simp only [hvis2, Bool.false_eq_true, if_false] at haccs
          have : accs2 = accs := by simpa using haccs
          rw [← this]
          exact ih sh hmem' hsplit hdec hvis haccs2
      | error e2 =>
        rw [hdec2] at haccs
        exact ih sh hmem' hsplit hdec hvis haccs

/-- With `show_hidden = false`, every listed account has `visible` distinct
from `Some(false)`. -/
theorem list_accounts_aux_visible :
    ∀ (l : List (Address × RStr)) {accs : List AccountInfo},
    list_accounts_aux l false = .ok accs → ∀ a ∈ accs, a.visible ≠ some false := by
  intro l
  induction l with
  | nil =>
    intro accs haccs
    have : ([] : List AccountInfo) = accs := by simpa [list_accounts_aux] using haccs
    rw [← this]
    intro a ha
    cases ha
  | cons e rest ih =>
    obtain ⟨k, v⟩ := e
    intro accs haccs
    simp only [list_accounts_aux, split_some] at haccs
    cases hdec : KeyFile.decode (joinSep ((splitSep v).drop 1)) with
    | ok kf =>
      rw [hdec] at haccs
      obtain ⟨accs2, haccs2⟩ := list_accounts_aux_ok rest false
      rw [haccs2] at haccs
      cases hvis : (kf.visible.isNone || kf.visible.getD false || false) with
      | true =>
        simp only [hvis, if_true] at haccs
        have : { AccountInfo.fromKeyFile kf with filename := (splitSep v).headD [] } :: accs2
            = accs := by simpa using haccs
        rw [← this]
        intro a ha
        rcases List.mem_cons.mp ha with rfl | ha'
        · show kf.visible ≠ some false
          cases hv : kf.visible with
          | none => simp
          | some b =>
            cases b with
            | true => simp
            | false => rw [hv] at hvis; simp at hvis
        · exact ih haccs2 a ha'
      | false =>
        simp only [hvis, Bool.false_eq_true, if_false] at haccs
        have : accs2 = accs := by simpa using haccs
        rw [← this]
        exact ih haccs2
    | error e2 =>
      rw [hdec] at haccs
      exact ih haccs

/-- Dropping the undecodable records from the DB does not change the listing:
`list_accounts` skips them. -/
theorem list_accounts_aux_filter (l : List (Address × RStr)) (sh : Bool) :
    list_accounts_aux (l.filter entryDecodable) sh = list_accounts_aux l sh := by
  induction l with
  | nil => rfl
  | cons e rest ih =>
    obtain ⟨k, v⟩ := e
    cases hdec : KeyFile.decode (joinSep ((splitSep v).drop 1)) with
    | ok kf =>
      have he : entryDecodable (k, v) = true := by
        simp only [entryDecodable, split_some]
        rw [hdec]
      rw [List.filter_cons_of_pos (by simpa using he)]
      simp only [list_accounts_aux, split_some, hdec, ih]
    | error e2 =>
      have he : entryDecodable (k, v) = false := by
        simp only [entryDecodable, split_some]
        rw [hdec]
      rw [List.filter_cons_of_neg (by simp [he])]
      simp only [list_accounts_aux, split_some, hdec, ih]

/-- Every entry that fails decoding is logged by the listing pass. -/
theorem list_logged_aux_mem :
    ∀ (l : List (Address × RStr)) {addr : Address} {val : RStr},
    (addr, val) ∈ l →
    ∀ {f j : RStr}, DbStorage.split (some val) = .ok (f, j) →
    ∀ {err : Error}, KeyFile.decode j = .error err →
    addr ∈ list_logged_aux l := by
  intro l
  induction l with
  | nil => intro addr val hmem; cases hmem
  | cons e rest ih =>
    obtain ⟨k, v⟩ := e
    intro addr val hmem f j hsplit err hdec
    simp only [list_logged_aux, split_some]
    rcases List.mem_cons.mp hmem with heq | hmem'
    · obtain ⟨rfl, rfl⟩ : addr = k ∧ val = v := by
        simpa [Prod.mk.injEq] using heq
      rw [split_some] at hsplit
      simp only [Except.ok.injEq, Prod.mk.injEq] at hsplit
      obtain ⟨hf, hj⟩ := hsplit
      rw [← hj] at hdec
      rw [hdec]
      exact List.mem_cons_self _ _
    · cases hdec2 : KeyFile.decode (joinSep ((splitSep v).drop 1)) with
      | ok kf2 => exact ih hmem' hsplit hdec
      | error e3 => exact List.mem_cons_of_mem _ (ih hmem' hsplit hdec)

/-- A decode failure in the singleton lookup propagates as an error. -/
theorem search_propagates (st : DbState) (addr : Address) {val : RStr}
    (hget : dbGet st.db addr = some val) {f j : RStr}
    (hsplit : DbStorage.split (some val) = .ok (f, j)) {err : Error}
    (hdec : KeyFile.decode j = .error err) :
    DbStorage.search_by_address st addr = .error err := by
  unfold DbStorage.search_by_address
  rw [hget, hsplit]
  exact hdec

/-! ### The derivation/cipher engine (spec §4.2), modelled from the spec -/

/-- XOR of two bytes. -/
def byteXor (a b : Byte) : Byte :=
  ⟨a.val ^^^ b.val, by
    have h := @Nat.xor_lt_two_pow a.val b.val 8 (by simp) (by simp)
    simpa using h⟩

/-- Byte-for-byte XOR of a buffer against a keystream (CTR mode). -/
def xorBytes : List Byte → List Byte → List Byte
  | x :: xs, k :: ks => byteXor x k :: xorBytes xs ks
  | _, _ => []

/-- Error kind of the cipher engine. -/
inductive KeystoreError
  | MacMismatch
deriving DecidableEq

/-- Modelled from the spec (§4.2): `encrypt` — the KDF (`derive`), the
AES-128-CTR keystream and Keccak-256 are abstracted as function parameters,
since the cryptographic primitives are outside the claims; `dk[0..16]` keys
the cipher, `dk[16..32]` feeds the MAC, and
`mac = Keccak256(dk[16..32] ++ cipher_text)`.  The salt and iv, drawn from
the RNG in the source, are explicit arguments.  Returns
`(cipher_text, mac)`. -/
def encrypt (derive : RStr → Kdf → List Byte → List Byte)
    (keystream : List Byte → List Byte → Nat → List Byte)
    (keccak256 : List Byte → List Byte)
    (password : RStr) (kdf : Kdf) (salt iv : List Byte) (plaintext : List Byte) :
    List Byte × List Byte :=
  let dk := derive password kdf salt
  let ct := xorBytes plaintext (keystream (dk.take 16) iv plaintext.length)
  (ct, keccak256 (dk.drop 16 ++ ct))

/-- Modelled from the spec (§4.2): `decrypt` — recompute `dk` and the MAC;
on mismatch return `MacMismatch` without touching the cipher, otherwise
CTR-decrypt the ciphertext byte for byte. -/
def decrypt (derive : RStr → Kdf → List Byte → List Byte)
    (keystream : List Byte → List Byte → Nat → List Byte)
    (keccak256 : List Byte → List Byte)
    (password : RStr) (kf : KeyFile) : Except KeystoreError (List Byte) :=
  let dk := derive password kf.kdf kf.kdf_salt
  let mac := keccak256 (dk.drop 16 ++ kf.cipher_text)
  if mac = kf.keccak256_mac then
    .ok (xorBytes kf.cipher_text (keystream (dk.take 16) kf.cipher_iv kf.cipher_text.length))
  else
    .error .MacMismatch

theorem byteXor_cancel (a k : Byte) : byteXor (byteXor a k) k = a := by
  apply Fin.ext
  show (a.val ^^^ k.val) ^^^ k.val = a.val
  rw [Nat.xor_assoc, Nat.xor_self, Nat.xor_zero]

theorem xorBytes_length : ∀ (xs ks : List Byte), ks.length = xs.length →
    (xorBytes xs ks).length = xs.length := by
  intro xs
  induction xs with
  | nil => intro ks h; cases ks <;> rfl
  | cons x xs ih =>
    intro ks h
    cases ks with
    | nil => simp at h
    | cons k ks =>
      show (byteXor x k :: xorBytes xs ks).length = (x :: xs).length
      simp only [List.length_cons] at h ⊢
      rw [ih ks (by omega)]

theorem xorBytes_cancel : ∀ (xs ks : List Byte), ks.length = xs.length →
    xorBytes (xorBytes xs ks) ks = xs := by
  intro xs
  induction xs with
  | nil => intro ks h; cases ks <;> rfl
  | cons x xs ih =>
    intro ks h
    cases ks with
    | nil => simp at h
    | cons k ks =>
      show byteXor (byteXor x k) k :: xorBytes (xorBytes xs ks) ks = x :: xs
      simp only [List.length_cons] at h
      rw [byteXor_cancel, ih ks (by omega)]

/-! ### Byte-buffer utilities (`util/mod.rs`) -/

/-- `trim_bytes` (`util/mod.rs` lines 75-84): drop the maximal prefix of zero
bytes. -/
def trim_bytes : List Byte → List Byte
  | [] => []
  | b :: rest => if b = 0 then trim_bytes rest else b :: rest

/-- `align_bytes` (`util/mod.rs` lines 68-72): left-pad with zero bytes to
`len` bytes.  The source computes `len - data.len()` in `usize`, which
panics (or aborts on allocation) when `data.len() > len`; the partiality is
modelled with `Option`. -/
def align_bytes (data : List Byte) (len : Nat) : Option (List Byte) :=
  if data.length ≤ len then
    some (List.replicate (len - data.length) (0 : Byte) ++ data)
  else
    none

theorem trim_bytes_length : ∀ (d : List Byte), (trim_bytes d).length ≤ d.length := by
  intro d
  induction d with
  | nil => exact Nat.le_refl _
  | cons b rest ih =>
    show (if b = 0 then trim_bytes rest else b :: rest).length ≤ rest.length + 1
    by_cases hb : b = 0
    · rw [if_pos hb]; omega
    · rw [if_neg hb]; simp

theorem trim_bytes_decomp : ∀ (d : List Byte),
    d = List.replicate (d.length - (trim_bytes d).length) (0 : Byte) ++ trim_bytes d := by
  intro d
  induction d with
  | nil => rfl
  | cons b rest ih =>
    by_cases hb : b = 0
    · subst hb
      show (0 : Byte) :: rest
          = List.replicate ((rest.length + 1) - (trim_bytes rest).length) (0 : Byte)
            ++ trim_bytes rest
      have hle := trim_bytes_length rest
      have : (rest.length + 1) - (trim_bytes rest).length
          = (rest.length - (trim_bytes rest).length) + 1 := by omega
      rw [this, List.replicate_succ, List.cons_append]
      rw [← ih]
    · show b :: rest = List.replicate ((b :: rest).length - (if b = 0 then trim_bytes rest
        else b :: rest).length) (0 : Byte) ++ (if b = 0 then trim_bytes rest else b :: rest)
      rw [if_neg hb]
      simp

theorem trim_bytes_head : ∀ (d : List Byte) (c : Byte),
    (trim_bytes d).head? = some c → c ≠ 0 := by
  intro d
  induction d with
  | nil => intro c h; cases h
  | cons b rest ih =>
    intro c h
    by_cases hb : b = 0
    · rw [show trim_bytes (b :: rest) = trim_bytes rest from by
        show (if b = 0 then trim_bytes rest else b :: rest) = trim_bytes rest
        rw [if_pos hb]] at h
      exact ih c h
    · rw [show trim_bytes (b :: rest) = b :: rest from by
        show (if b = 0 then trim_bytes rest else b :: rest) = b :: rest
        rw [if_neg hb]] at h
      cases h
      exact hb

/-! ### The RPC import callback (`rpc/mod.rs`) -/

/-- `Address::default()`: the all-zero 20-byte address. -/
def Address.default : Address := ⟨List.replicate 20 0⟩

/-- Modelled from the spec (§3, I6): the display form of an address —
lowercase hex with the `0x` prefix. -/
def Address.toStr (a : Address) : RStr := "0x".data ++ bytesToHex a.bytes

/-- Results of the `backend_importWallet` callback (`rpc/mod.rs`
lines 164-199). -/
inductive RpcResult
  | result (s : RStr)
  | invalid_params (msg : String)
  | internal_error
deriving DecidableEq

/-- Shallow embedding of `import_callback` (`rpc/mod.rs` lines 164-199) after
parameter extraction: given the outcome of decoding the `"account"` JSON into
a `KeyFile` and whether `kf.flush` succeeded (filesystem I/O, modelled as a
flag), the callback answers `Address::default().to_string()` on success — the
imported record's own address is never consulted. -/
def import_callback (decoded : Except Error KeyFile) (flush_ok : Bool) : RpcResult :=
  match decoded with
  | .ok _ =>
    let addr := Address.toStr Address.default
    if flush_ok then .result addr else .internal_error
  | .error _ => .invalid_params "Invalid Keyfile data format"

/-! ### Concrete fixtures for witnesses and counterexamples -/

/-- The all-zero address. -/
def addrZero : Address := ⟨List.replicate 20 0⟩

/-- The address of the scrypt test keyfile of `keystore_test.rs`
(`0x0047201aed0b69875b24b614dda0270bcd9f11cc`). -/
def addrScrypt : Address :=
  ⟨[0x00, 0x47, 0x20, 0x1a, 0xed, 0x0b, 0x69, 0x87, 0x5b, 0x24,
    0xb6, 0x14, 0xdd, 0xa0, 0x27, 0x0b, 0xcd, 0x9f, 0x11, 0xcc]⟩

/-- A hidden record (`visible = Some(false)`), following the scrypt test
keyfile of `keystore_test.rs` (byte fields shortened). -/
def kfHidden : KeyFile :=
  { uuid := "f7ab2bfa-e336-4f45-a31f-beb3dd0689f3".data
  , address := addrScrypt
  , dk_length := 32
  , kdf := .Scrypt 1024 8 1
  , kdf_salt := [0xfd, 0x4a, 0xcb, 0x81]
  , cipher_iv := [0x9d, 0xf1, 0x64, 0x9d]
  , cipher_text := [0xc3, 0xdf, 0xc9, 0x5c]
  , keccak256_mac := [0x9f, 0x8a, 0x85, 0x34]
  , name := none
  , description := none
  , visible := some false
  , meta := none }

/-- A one-record storage holding the hidden record. -/
def stHidden : DbState := putState { db := [], now := "2017-03-17T10-52-08".data } kfHidden

/-- A record whose name contains the literal separator `<|>`. -/
def kfSepName : KeyFile := { kfHidden with name := some "a<|>b".data, visible := none }

/-- The empty storage. -/
def stEmpty : DbState := { db := [], now := [] }

/-- A stored value whose json part does not decode. -/
def badVal : RStr := "file1".data ++ SEPARATOR ++ "garbage".data

/-- A storage state holding one record whose json does not decode. -/
def stBad : DbState := { db := [(addrZero, badVal)], now := [] }

/-- A record with the geth import fixture's declared address
(`0xf0eb6c4578d1890c76d335406bc3e1edebe19bc2`). -/
def kfGeth : KeyFile :=
  { kfHidden with
    address := ⟨[0xf0, 0xeb, 0x6c, 0x45, 0x78, 0xd1, 0x89, 0x0c, 0x76, 0xd3,
      0x35, 0x40, 0x6b, 0xc3, 0xe1, 0xed, 0xeb, 0xe1, 0x9b, 0xc2]⟩,
    uuid := "63cd0211-819e-439c-b032-d4d58bce82ee".data,
    visible := none }

/-! ### The claims -/

/-- C1: for every filename string that does not contain the literal separator
`<|>` and every json string (which may itself contain `<|>`), splitting the
stored KV value `filename + "<|>" + json` returns exactly `(filename, json)`;
consequently a KeyFile whose name contains `<|>` survives `put` followed by
`list_accounts` with its filename and JSON unchanged. -/
theorem c1_split_and_kv_roundtrip :
    (∀ (filename json : RStr), hasSep filename = false →
      DbStorage.split (some (filename ++ SEPARATOR ++ json)) = .ok (filename, json))
    ∧ (∀ (st : DbState) (kf : KeyFile) (nm : RStr), kf.name = some nm → hasSep nm = true →
      hasSep (generate_filename st.now kf.uuid) = false →
      DbStorage.put st kf = .ok (putState st kf)
      ∧ dbGet (putState st kf).db kf.address
          = some (generate_filename st.now kf.uuid ++ SEPARATOR ++ KeyFile.encode kf)
      ∧ DbStorage.split (dbGet (putState st kf).db kf.address)
          = .ok (generate_filename st.now kf.uuid, KeyFile.encode kf)
      ∧ ∃ accs, DbStorage.list_accounts (putState st kf) true = .ok accs
          ∧ { AccountInfo.fromKeyFile kf with
                filename := generate_filename st.now kf.uuid } ∈ accs) := by
  constructor
  · intro filename json hf
    exact split_sep_value json hf
  · intro st kf nm hnm hsep hf
    refine ⟨put_eq st kf, dbGet_putState st kf, ?_, ?_⟩
    · rw [dbGet_putState st kf]
      exact split_sep_value _ hf
    · obtain ⟨accs, haccs⟩ := list_accounts_aux_ok (putState st kf).db true
      refine ⟨accs, haccs, ?_⟩
      exact list_accounts_aux_mem (putState st kf).db true (mem_dbPutRaw st.db kf.address _)
        (split_sep_value _ hf) (decode_encode kf) (by simp) haccs

/-- C2: `list_accounts(show_hidden=false)` never returns an account whose
underlying KeyFile has `visible == Some(false)`, and
`list_accounts(show_hidden=true)` includes every decodable record regardless
of its visible field. -/
theorem c2_list_visibility :
    (∀ (st : DbState) (accs : List AccountInfo),
      DbStorage.list_accounts st false = .ok accs →
      ∀ (e : Address × RStr), e ∈ st.db →
      ∀ (f j : RStr), DbStorage.split (some e.2) = .ok (f, j) →
      ∀ (kf : KeyFile), KeyFile.decode j = .ok kf →
      kf.visible = some false →
      { AccountInfo.fromKeyFile kf with filename := f } ∉ accs)
    ∧ (∀ (st : DbState) (accs : List AccountInfo),
      DbStorage.list_accounts st true = .ok accs →
      ∀ (e : Address × RStr), e ∈ st.db →
      ∀ (f j : RStr), DbStorage.split (some e.2) = .ok (f, j) →
      ∀ (kf : KeyFile), KeyFile.decode j = .ok kf →
      { AccountInfo.fromKeyFile kf with filename := f } ∈ accs) := by
  constructor
  · intro st accs haccs e hmem f j hsplit kf hdec hvisf hin
    have hne := list_accounts_aux_visible st.db haccs _ hin
    apply hne
    show kf.visible = some false
    exact hvisf
  · intro st accs haccs e hmem f j hsplit kf hdec
    obtain ⟨addr, val⟩ := e
    exact list_accounts_aux_mem st.db true hmem hsplit hdec (by simp) haccs

set_option maxRecDepth 1000000 in
/-- C3 counterexample: `hide` on a record that is already hidden
(`visible == Some(false)`) still returns `Ok(true)` — not `false` as the
claim requires of a state that did not change. -/
theorem c3_hide_already_hidden_cex :
    DbStorage.search_by_address stHidden addrScrypt = .ok kfHidden
    ∧ kfHidden.visible = some false
    ∧ DbStorage.hide stHidden addrScrypt
        = .ok (true, putState stHidden { kfHidden with visible := some false })
    ∧ DbStorage.hide stHidden addrScrypt
        ≠ .ok (false, putState stHidden { kfHidden with visible := some false }) := by
  refine ⟨rfl, rfl, rfl, ?_⟩
  intro h
  rw [show DbStorage.hide stHidden addrScrypt
      = .ok (true, putState stHidden { kfHidden with visible := some false }) from rfl] at h
  simp at h

/-- C3 amended: `hide`/`unhide` read the record, set its `visible` field to
`Some(false)` respectively `Some(true)`, write it back, and return `true`
unconditionally — also when the visibility state did not change. -/
theorem c3_hide_unhide_amended :
    ∀ (st : DbState) (addr : Address) (kf : KeyFile),
    DbStorage.search_by_address st addr = .ok kf →
    kf.address = addr →
    hasSep (generate_filename st.now kf.uuid) = false →
    (DbStorage.hide st addr = .ok (true, putState st { kf with visible := some false })
      ∧ DbStorage.search_by_address (putState st { kf with visible := some false }) addr
        = .ok { kf with visible := some false })
    ∧ (DbStorage.unhide st addr = .ok (true, putState st { kf with visible := some true })
      ∧ DbStorage.search_by_address (putState st { kf with visible := some true }) addr
        = .ok { kf with visible := some true }) := by
  intro st addr kf hsearch haddr hf
  refine ⟨⟨?_, ?_⟩, ⟨?_, ?_⟩⟩
  · unfold DbStorage.hide
    rw [hsearch]
    show (match DbStorage.put st { kf with visible := some false } with
      | Except.error e => Except.error e
      | Except.ok st2 => Except.ok (true, st2))
      = Except.ok (true, putState st { kf with visible := some false })
    rw [put_eq]
  · rw [← haddr]
    exact search_after_put st { kf with visible := some false } hf
  · unfold DbStorage.unhide
    rw [hsearch]
    show (match DbStorage.put st { kf with visible := some true } with
      | Except.error e => Except.error e
      | Except.ok st2 => Except.ok (true, st2))
      = Except.ok (true, putState st { kf with visible := some true })
    rw [put_eq]
  · rw [← haddr]
    exact search_after_put st { kf with visible := some true } hf

set_option maxRecDepth 1000000 in
/-- C3 witness: on the concrete one-record hidden storage, `hide` and
`unhide` behave as the amended claim states. -/
theorem c3_witness :
    DbStorage.hide stHidden addrScrypt
      = .ok (true, putState stHidden { kfHidden with visible := some false })
    ∧ DbStorage.unhide stHidden addrScrypt
      = .ok (true, putState stHidden { kfHidden with visible := some true }) :=
  ⟨(c3_hide_unhide_amended stHidden addrScrypt kfHidden rfl rfl (by decide)).1.1,
   (c3_hide_unhide_amended stHidden addrScrypt kfHidden rfl rfl (by decide)).2.1⟩

/-- C4 counterexample: deleting an absent address does not return `NotFound`:
the underlying `db.delete` succeeds and `delete` answers `Ok(())`. -/
theorem c4_delete_absent_cex :
    dbGet stEmpty.db addrZero = none
    ∧ DbStorage.delete stEmpty addrZero = .ok stEmpty
    ∧ DbStorage.delete stEmpty addrZero ≠ .error (.NotFound "Can't extract filename") := by
  refine ⟨rfl, rfl, ?_⟩
  intro h
  rw [show DbStorage.delete stEmpty addrZero = .ok stEmpty from rfl] at h
  cases h

/-- C4 amended: for an address with no stored record, `search_by_address`
returns the `NotFound` error, while `delete` succeeds with `Ok(())` (it
removes nothing and reports no error). -/
theorem c4_absent_behaviour :
    ∀ (st : DbState) (addr : Address), dbGet st.db addr = none →
    DbStorage.search_by_address st addr = .error (.NotFound "Can't extract filename")
    ∧ DbStorage.delete st addr = .ok { st with db := dbDelete st.db addr } := by
  intro st addr h
  exact ⟨search_absent st addr h, rfl⟩

/-- C4 witness: the amended claim at the empty storage. -/
theorem c4_witness :
    DbStorage.search_by_address stEmpty addrZero
      = .error (.NotFound "Can't extract filename")
    ∧ DbStorage.delete stEmpty addrZero
      = .ok { stEmpty with db := dbDelete stEmpty.db addrZero } :=
  c4_absent_behaviour stEmpty addrZero rfl

/-- C5: `update(addr, name, desc)` replaces the record's name exactly when
`name` is `Some`, its description exactly when `desc` is `Some`, and rewrites
the record with every other field preserved — witnessed by the re-read record
being the structure update of the old one in only those two fields. -/
theorem c5_update_frame :
    ∀ (st : DbState) (addr : Address) (kf : KeyFile) (nm ds : Option RStr),
    DbStorage.search_by_address st addr = .ok kf →
    kf.address = addr →
    hasSep (generate_filename st.now kf.uuid) = false →
    DbStorage.update st addr nm ds
      = .ok (putState st { kf with name := if nm.isSome then nm else kf.name,
                                   description := if ds.isSome then ds else kf.description })
    ∧ DbStorage.search_by_address
        (putState st { kf with name := if nm.isSome then nm else kf.name,
                               description := if ds.isSome then ds else kf.description }) addr
      = .ok { kf with name := if nm.isSome then nm else kf.name,
                      description := if ds.isSome then ds else kf.description } := by
  intro st addr kf nm ds hsearch haddr hf
  cases nm with
  | none =>
    cases ds with
    | none =>
      constructor
      · unfold DbStorage.update
        rw [hsearch]
        show DbStorage.put st kf = _
        rw [put_eq]
        rfl
      · rw [← haddr]
        exact search_after_put st kf hf
    | some d =>
      constructor
      · unfold DbStorage.update
        rw [hsearch]
        show DbStorage.put st { kf with description := some d } = _
        rw [put_eq]
        rfl
      · rw [← haddr]
        exact search_after_put st { kf with description := some d } hf
  | some n =>
    cases ds with
    | none =>
      constructor
      · unfold DbStorage.update
        rw [hsearch]
        show DbStorage.put st { kf with name := some n } = _
        rw [put_eq]
        rfl
      · rw [← haddr]
        exact search_after_put st { kf with name := some n } hf
    | some d =>
      constructor
      · unfold DbStorage.update
        rw [hsearch]
        show DbStorage.put st { kf with name := some n, description := some d } = _
        rw [put_eq]
        rfl
      · rw [← haddr]
        exact search_after_put st { kf with name := some n, description := some d } hf

set_option maxRecDepth 1000000 in
/-- C5 witness: updating only the name of the concrete stored record rewrites
it with the new name, the old description and every other field unchanged. -/
theorem c5_witness :
    DbStorage.update stHidden addrScrypt (some "n2".data) none
      = .ok (putState stHidden { kfHidden with name := some "n2".data,
                                               description := kfHidden.description })
    ∧ DbStorage.search_by_address
        (putState stHidden { kfHidden with name := some "n2".data,
                                           description := kfHidden.description }) addrScrypt
      = .ok { kfHidden with name := some "n2".data, description := kfHidden.description } :=
  c5_update_frame stHidden addrScrypt kfHidden (some "n2".data) none rfl rfl (by decide)

/-- C6: `put(k)` followed by `search_by_address(k.address)` returns a KeyFile
equal to `k` on all declared fields; `put` succeeds on every prior state —
in particular on one already holding a record at the same address, which it
overwrites rather than failing. -/
theorem c6_put_search_overwrite :
    ∀ (st : DbState) (kf : KeyFile),
    hasSep (generate_filename st.now kf.uuid) = false →
    DbStorage.put st kf = .ok (putState st kf)
    ∧ DbStorage.search_by_address (putState st kf) kf.address = .ok kf
    ∧ dbGet (putState st kf).db kf.address
        = some (generate_filename st.now kf.uuid ++ SEPARATOR ++ KeyFile.encode kf) := by
  intro st kf hf
  exact ⟨put_eq st kf, search_after_put st kf hf, dbGet_putState st kf⟩

set_option maxRecDepth 1000000 in
/-- C6 witness: put-then-search on a state that already holds a record at the
same address returns the freshly written record. -/
theorem c6_witness :
    DbStorage.put stHidden kfSepName = .ok (putState stHidden kfSepName)
    ∧ DbStorage.search_by_address (putState stHidden kfSepName) kfSepName.address
      = .ok kfSepName :=
  ⟨(c6_put_search_overwrite stHidden kfSepName (by decide)).1,
   (c6_put_search_overwrite stHidden kfSepName (by decide)).2.1⟩

/-- C7: `list_accounts` never aborts on a decode failure — it logs the
record's address, skips the record (filtering the undecodable records out of
the DB leaves the listing unchanged) and returns `Ok` of the remaining
decodable records; the singleton lookup `search_by_address` instead
propagates the decode failure as its error. -/
theorem c7_decode_failures :
    ∀ (st : DbState) (sh : Bool),
    (∃ accs, DbStorage.list_accounts st sh = .ok accs)
    ∧ (∀ (e : Address × RStr), e ∈ st.db →
        ∀ (f j : RStr), DbStorage.split (some e.2) = .ok (f, j) →
        ∀ (err : Error), KeyFile.decode j = .error err →
        e.1 ∈ DbStorage.list_logged st)
    ∧ DbStorage.list_accounts { db := st.db.filter entryDecodable, now := st.now } sh
        = DbStorage.list_accounts st sh
    ∧ (∀ (addr : Address) (val : RStr), dbGet st.db addr = some val →
        ∀ (f j : RStr), DbStorage.split (some val) = .ok (f, j) →
        ∀ (err : Error), KeyFile.decode j = .error err →
        DbStorage.search_by_address st addr = .error err) := by
  intro st sh
  refine ⟨list_accounts_aux_ok st.db sh, ?_, ?_, ?_⟩
  · intro e hmem f j hsplit err hdec
    obtain ⟨addr, val⟩ := e
    exact list_logged_aux_mem st.db hmem hsplit hdec
  · exact list_accounts_aux_filter st.db sh
  · intro addr val hget f j hsplit err hdec
    exact search_propagates st addr hget hsplit hdec

/-- C7 witness: on a storage with one undecodable record, the record's
address is logged and the singleton lookup propagates the decode error. -/
theorem c7_witness :
    addrZero ∈ DbStorage.list_logged stBad
    ∧ DbStorage.search_by_address stBad addrZero = .error .InvalidJson :=
  ⟨(c7_decode_failures stBad false).2.1 (addrZero, badVal) (by decide)
      ("file1".data) ("garbage".data) rfl .InvalidJson rfl,
   (c7_decode_failures stBad false).2.2.2 addrZero badVal rfl
      ("file1".data) ("garbage".data) rfl .InvalidJson rfl⟩

/-- C8: the import callback answers `Address::default().to_string()` — the
all-zero address — for every successfully imported keyfile; it never derives
the address from the imported record's secret and never checks it against the
declared one, contradicting the claimed behaviour.  At the geth fixture's
record the returned address differs from the record's declared address. -/
theorem c8_import_returns_default_address :
    (∀ (kf : KeyFile) (flush_ok : Bool), flush_ok = true →
      import_callback (.ok kf) flush_ok = .result (Address.toStr Address.default))
    ∧ Address.toStr Address.default
        = "0x0000000000000000000000000000000000000000".data
    ∧ kfGeth.address ≠ Address.default
    ∧ import_callback (.ok kfGeth) true
        = .result ("0x0000000000000000000000000000000000000000".data) := by
  refine ⟨?_, by decide, by decide, by decide⟩
  intro kf fl hfl
  subst hfl
  rfl

/-- C8 witness: the theorem applied at the geth fixture. -/
theorem c8_witness :
    import_callback (.ok kfGeth) true = .result (Address.toStr Address.default) :=
  c8_import_returns_default_address.1 kfGeth true rfl

/-- C9: for every password (including the empty password) and every 32-byte
secret, `decrypt(password, encrypt(password, secret))` returns exactly the
secret; and whenever the recomputed MAC differs from the stored one,
`decrypt` returns `MacMismatch` without decrypting.  The KDF, keystream and
Keccak-256 primitives are abstracted as function parameters with the
keystream producing one byte per requested position. -/
theorem c9_decrypt_encrypt :
    ∀ (derive : RStr → Kdf → List Byte → List Byte)
      (keystream : List Byte → List Byte → Nat → List Byte)
      (keccak256 : List Byte → List Byte),
    (∀ key iv n, (keystream key iv n).length = n) →
    (∀ (password : RStr) (kdf : Kdf) (salt iv secret : List Byte) (kf : KeyFile),
      secret.length = 32 →
      kf.kdf = kdf → kf.kdf_salt = salt → kf.cipher_iv = iv →
      kf.cipher_text = (encrypt derive keystream keccak256 password kdf salt iv secret).1 →
      kf.keccak256_mac = (encrypt derive keystream keccak256 password kdf salt iv secret).2 →
      decrypt derive keystream keccak256 password kf = .ok secret)
    ∧ (∀ (password : RStr) (kf : KeyFile),
      keccak256 ((derive password kf.kdf kf.kdf_salt).drop 16 ++ kf.cipher_text)
        ≠ kf.keccak256_mac →
      decrypt derive keystream keccak256 password kf = .error .MacMismatch) := by
  intro derive keystream keccak256 hks
  constructor
  · intro password kdf salt iv secret kf hsec hkdf hsalt hiv hct hmac
    simp only [decrypt, encrypt, hkdf, hsalt, hiv, hct, hmac, eq_self_iff_true, if_true]
    rw [xorBytes_length secret _ (hks _ _ _)]
    rw [xorBytes_cancel secret _ (hks _ _ _)]
  · intro password kf hne
    simp only [decrypt]
    rw [if_neg hne]

/-- Concrete derive function for the C9 witness. -/
def deriveW : RStr → Kdf → List Byte → List Byte := fun _ _ _ => List.replicate 32 0

/-- Concrete keystream function for the C9 witness. -/
def keystreamW : List Byte → List Byte → Nat → List Byte := fun _ _ n => List.replicate n 7

/-- Concrete stand-in hash for the C9 witness. -/
def keccakW : List Byte → List Byte := fun l => l.take 32

/-- Concrete 32-byte secret for the C9 witness. -/
def secretW : List Byte := List.replicate 32 1

/-- A record carrying exactly the ciphertext and MAC that `encrypt` produces
for `secretW` under the empty password. -/
def kfC9 : KeyFile :=
  { kfHidden with
    kdf := .Pbkdf2 10240, kdf_salt := [9], cipher_iv := [1, 2],
    cipher_text := (encrypt deriveW keystreamW keccakW [] (.Pbkdf2 10240) [9] [1, 2] secretW).1,
    keccak256_mac :=
      (encrypt deriveW keystreamW keccakW [] (.Pbkdf2 10240) [9] [1, 2] secretW).2 }

/-- A record whose stored MAC cannot match the recomputed one. -/
def kfBadMac : KeyFile := { kfC9 with keccak256_mac := [] }

/-- C9 witness: the roundtrip at the empty password and a concrete 32-byte
secret, and `MacMismatch` on a tampered MAC. -/
theorem c9_witness :
    decrypt deriveW keystreamW keccakW [] kfC9 = .ok secretW
    ∧ decrypt deriveW keystreamW keccakW [] kfBadMac = .error .MacMismatch :=
  ⟨(c9_decrypt_encrypt deriveW keystreamW keccakW (fun _ _ n => by simp [keystreamW])).1
      [] (.Pbkdf2 10240) [9] [1, 2] secretW kfC9 (by decide) rfl rfl rfl rfl rfl,
   (c9_decrypt_encrypt deriveW keystreamW keccakW (fun _ _ n => by simp [keystreamW])).2
      [] kfBadMac (by decide)⟩

/-- C10: `align_bytes(trim_bytes(d), len(d)) == d` — `trim_bytes` removes
exactly the maximal prefix of zero bytes (the remainder never starts with a
zero byte), `align_bytes` left-pads with zero bytes back to the original
length, and `align_bytes(data, len)` is total (returns `some`) exactly when
`len(data) ≤ len`, since the padding-length subtraction requires it. -/
theorem c10_trim_align_roundtrip :
    (∀ d : List Byte, align_bytes (trim_bytes d) d.length = some d)
    ∧ (∀ d : List Byte,
        d = List.replicate (d.length - (trim_bytes d).length) (0 : Byte) ++ trim_bytes d)
    ∧ (∀ (d : List Byte) (c : Byte), (trim_bytes d).head? = some c → c ≠ 0)
    ∧ (∀ (d : List Byte) (len : Nat), (align_bytes d len).isSome = true ↔ d.length ≤ len) := by
  refine ⟨?_, trim_bytes_decomp, trim_bytes_head, ?_⟩
  · intro d
    unfold align_bytes
    rw [if_pos (trim_bytes_length d)]
    rw [← trim_bytes_decomp d]
  · intro d len
    unfold align_bytes
    by_cases h : d.length ≤ len
    · rw [if_pos h]; simp [h]
    · rw [if_neg h]; simp [h]

/-- C10 witness: the roundtrip and the no-leading-zero property on a concrete
buffer. -/
theorem c10_witness :
    align_bytes (trim_bytes [0, 0, 3, 0]) 4 = some [0, 0, 3, 0]
    ∧ (3 : Byte) ≠ 0 :=
  ⟨c10_trim_align_roundtrip.1 [0, 0, 3, 0],
   c10_trim_align_roundtrip.2.2.1 [0, 0, 3, 0] 3 (by decide)⟩

set_option maxRecDepth 1000000 in
/-- C1 witness: the split identity on a json containing the separator, and
`put` of a record whose name contains the separator. -/
theorem c1_witness :
    DbStorage.split (some ("file1".data ++ SEPARATOR ++ "a<|>b".data))
      = .ok ("file1".data, "a<|>b".data)
    ∧ DbStorage.put stEmpty kfSepName = .ok (putState stEmpty kfSepName) :=
  ⟨c1_split_and_kv_roundtrip.1 ("file1".data) ("a<|>b".data) (by decide),
   (c1_split_and_kv_roundtrip.2 stEmpty kfSepName ("a<|>b".data) rfl (by decide) (by decide)).1⟩

/-- The listing projection of the hidden record inside `stHidden`. -/
def accHidden : AccountInfo :=
  { AccountInfo.fromKeyFile kfHidden with
    filename := generate_filename "2017-03-17T10-52-08".data kfHidden.uuid }

set_option maxRecDepth 1000000 in
/-- C2 witness: the hidden record is excluded from `list_accounts false` and
included in `list_accounts true`. -/
theorem c2_witness :
    DbStorage.list_accounts stHidden false = .ok []
    ∧ accHidden ∈ [accHidden] := by
  refine ⟨rfl, ?_⟩
  exact c2_list_visibility.2 stHidden [accHidden] rfl
    (addrScrypt, putValue { db := [], now := "2017-03-17T10-52-08".data } kfHidden)
    (List.mem_cons_self _ _)
    (generate_filename "2017-03-17T10-52-08".data kfHidden.uuid)
    (KeyFile.encode kfHidden) (split_sep_value _ (by decide)) kfHidden (decode_encode kfHidden)

end Emerald
